import Mathlib

/-!
Verification of the data-retrieval and summary-statistics core of the
CryptoTracker dashboard (src/Stock_App.py).

The embedding models:
  * `get_coins_list`  (Stock_App.py lines 8-17): catalog fetch, fail-soft.
  * `get_coin_history` (Stock_App.py lines 19-36): history fetch, timestamp
    normalization to calendar dates, fail-soft.
  * the summary statistics of `main` (lines 70-78): first-occurrence
    argmax/argmin over the price column, 12-decimal display formatting.

HTTP responses are modelled as already-parsed values (the endpoints return
JSON per the interface contract); prices are modelled as exact rationals.
Side effects (`st.error` notifications) are modelled by returning the list
of notification messages emitted during the call.
-/

/-- A calendar date (proleptic Gregorian). All timestamps in scope are
non-negative epoch milliseconds, so years are at least 1970. -/
structure Date where
  year : ℕ
  month : ℕ
  day : ℕ
deriving DecidableEq, Repr

/-- Convert a count of days since 1970-01-01 to a civil date
(standard Gregorian conversion, floor-division form). This models the
day component of pandas `to_datetime(ts, unit='ms')`, which interprets
epoch timestamps as naive UTC. -/
def daysToDate (days : ℕ) : Date :=
  let z := days + 719468
  let era := z / 146097
  let doe := z % 146097
  let yoe := (doe - doe / 1460 + doe / 36524 - doe / 146096) / 365
  let y := yoe + era * 400
  let doy := doe - (365 * yoe + yoe / 4 - yoe / 100)
  let mp := (5 * doy + 2) / 153
  let d := doy - (153 * mp + 2) / 5 + 1
  let m := if mp < 10 then mp + 3 else mp - 9
  ⟨if m ≤ 2 then y + 1 else y, m, d⟩

/-- `pd.to_datetime(ts, unit='ms').dt.date` (Stock_App.py line 32):
truncate a millisecond epoch timestamp to its UTC calendar day. -/
def msToDate (ms : ℕ) : Date :=
  daysToDate (ms / 86400000)

/-- A catalog entry: `id` and `name` fields of one object of the JSON
array returned by `/api/v3/coins/list`. -/
structure Coin where
  id : String
  name : String
deriving DecidableEq, Repr

/-- A catalog HTTP response: `ok` is `response.ok`; `body` is the parsed
JSON array (`response.json()`), read only when `ok` holds. -/
structure CatalogResponse where
  ok : Bool
  body : List Coin
deriving DecidableEq, Repr

/-- Notification emitted by `st.error` on catalog failure
(Stock_App.py line 16). -/
def coinsListErrMsg : String := "Error fetching the coins list."

/-- `get_coins_list` (Stock_App.py lines 8-17), with the HTTP transport
made explicit: given the response to `GET /api/v3/coins/list`, return the
parsed coin list and the list of `st.error` notifications emitted.
On `response.ok` the parsed JSON array is returned as-is; otherwise one
error is reported and the empty list is returned. -/
def get_coins_list (resp : CatalogResponse) : List Coin × List String :=
  if resp.ok then
    (resp.body, [])
  else
    ([], [coinsListErrMsg])

/-- One point of the normalized price series: `date` and `price` columns
of the DataFrame built in `get_coin_history`. -/
structure PricePoint where
  date : Date
  price : ℚ
deriving DecidableEq, Repr

/-- The tabular value returned by `get_coin_history`: a pandas DataFrame,
modelled by its column labels (in order) and its rows. -/
structure HistDF where
  columns : List String
  rows : List PricePoint
deriving DecidableEq, Repr

/-- A history HTTP response: `ok` is `response.ok`; `prices` is the
`prices` field of the parsed JSON object — an array of
`[timestamp_ms, price]` pairs — or `none` when the object lacks that
field (then `data.get("prices", [])` yields the empty list). -/
structure HistResponse where
  ok : Bool
  prices : Option (List (ℕ × ℚ))
deriving DecidableEq, Repr

/-- Notification emitted by `st.error` on history failure
(Stock_App.py line 35), parameterized by the coin id as in the f-string. -/
def histErrMsg (coin_id : String) : String :=
  "Error fetching the historical data for " ++ coin_id ++ "."

/-- `get_coin_history` (Stock_App.py lines 19-36), with the HTTP transport
made explicit: given the response to the range query for `coin_id`,
return the DataFrame and the notifications emitted. On success the
`prices` pairs (defaulting to `[]` when the field is absent) become rows
`(timestamp, price)`, a `date` column is added by millisecond-to-day
truncation, and the `timestamp` column is dropped, leaving columns
`["price", "date"]`. On failure one error is reported and an empty frame
with columns `["date", "price"]` is returned. The `from_timestamp` and
`to_timestamp` arguments only feed the query string. -/
def get_coin_history (coin_id : String) (from_timestamp to_timestamp : ℤ)
    (resp : HistResponse) : HistDF × List String :=
  if resp.ok then
    let prices := resp.prices.getD []
    let rows := prices.map (fun pr => PricePoint.mk (msToDate pr.1) pr.2)
    (⟨["price", "date"], rows⟩, [])
  else
    (⟨["date", "price"], []⟩, [histErrMsg coin_id])

/-- Scan of pandas `Series.idxmax` (Stock_App.py line 71): walk the
column keeping the index and value of the running maximum, replacing it
only on a strictly larger value, so the first occurrence of the maximum
wins. `best` is the (index, value) of the best element so far and `i`
the index of the head of the remaining list. -/
def idxmaxAux (best : ℕ × ℚ) (i : ℕ) : List ℚ → ℕ × ℚ
  | [] => best
  | x :: xs => if best.2 < x then idxmaxAux (i, x) (i + 1) xs
               else idxmaxAux best (i + 1) xs

/-- Scan of pandas `Series.idxmin` (Stock_App.py line 72): dual of
`idxmaxAux`, replacing the running minimum only on a strictly smaller
value. -/
def idxminAux (best : ℕ × ℚ) (i : ℕ) : List ℚ → ℕ × ℚ
  | [] => best
  | x :: xs => if x < best.2 then idxminAux (i, x) (i + 1) xs
               else idxminAux best (i + 1) xs

/-- Structural reformulation of the `idxmaxAux` scan: first-occurrence
argmax of a list, returning the offset and value of the first maximal
element, used to reason about the scan by structural induction. -/
def argmaxF : List ℚ → Option (ℕ × ℚ)
  | [] => none
  | x :: xs =>
      match argmaxF xs with
      | none => some (0, x)
      | some jv => if x < jv.2 then some (jv.1 + 1, jv.2) else some (0, x)

/-- Structural reformulation of the `idxminAux` scan: first-occurrence
argmin of a list. -/
def argminF : List ℚ → Option (ℕ × ℚ)
  | [] => none
  | x :: xs =>
      match argminF xs with
      | none => some (0, x)
      | some jv => if jv.2 < x then some (jv.1 + 1, jv.2) else some (0, x)

/-- The summary record displayed by `main` (Stock_App.py lines 70-83). -/
structure Summary where
  max_price : ℚ
  max_date : Date
  min_price : ℚ
  min_date : Date
deriving DecidableEq, Repr

/-- The summary statistics of `main` (Stock_App.py lines 70-76), guarded
by the `not df.empty` check of line 63: on an empty frame `main` renders
an error instead, so the statistics are only produced for non-empty rows.
`max_price`/`min_price` come from `df['price'].max()`/`.min()` (a fold of
the binary max/min over the column), and `max_date`/`min_date` from
`df.loc[df['price'].idxmax()]['date']` / `idxmin`. -/
def summarize : List PricePoint → Option Summary
  | [] => none
  | p :: ps =>
      let tailPrices := ps.map PricePoint.price
      let imax := (idxmaxAux (0, p.price) 1 tailPrices).1
      let imin := (idxminAux (0, p.price) 1 tailPrices).1
      let vmax := tailPrices.foldl max p.price
      let vmin := tailPrices.foldl min p.price
      some ⟨vmax, ((p :: ps).getD imax p).date, vmin, ((p :: ps).getD imin p).date⟩

/-- The rational value denoted by the fixed 12-decimal string
produced at Stock_App.py lines 77-78 (the format `".12f"` rounds the
value to 12 decimal places); prices are modelled as exact rationals. -/
def format12 (q : ℚ) : ℚ :=
  ((round (q * 10 ^ 12) : ℤ) : ℚ) / 10 ^ 12

/-- Modelled from the spec: the `st.cache_data` decorator on
`get_coins_list` (Stock_App.py line 8) — its implementation lives in the
Streamlit library, not in this repository. The spec requires the result
to be memoized within the cache window so that a repeated call returns
the cached value without a second network call. `cached` holds the
memoized return value (refreshes within the window hit it) and
`network_calls` counts actual executions of the body, i.e. HTTP GETs. -/
structure CacheState where
  cached : Option (List Coin)
  network_calls : ℕ
deriving DecidableEq, Repr

/-- Modelled from the spec: `get_coins_list` as called through its
`st.cache_data` wrapper. On a cache hit the memoized value is returned
and the body is not executed (so no network call and no notification);
on a miss the body runs once and its return value is stored. -/
def cached_get_coins_list (resp : CatalogResponse) (s : CacheState) :
    (List Coin × List String) × CacheState :=
  match s.cached with
  | some r => ((r, []), s)
  | none =>
      let r := get_coins_list resp
      (r, ⟨some r.1, s.network_calls + 1⟩)

/-- The three-point example series of the spec's testable properties:
prices 100, 105, 90 on three consecutive dates. -/
def exampleSeries : List PricePoint :=
  [⟨⟨2024, 1, 1⟩, 100⟩, ⟨⟨2024, 1, 2⟩, 105⟩, ⟨⟨2024, 1, 3⟩, 90⟩]

/-- C2: for every successful history response carrying a `prices` array,
`get_coin_history` maps each `[timestamp_ms, price]` pair to a
`(date, price)` record in source order, the date obtained by truncating
the millisecond timestamp to its UTC day, with the raw millisecond field
dropped; on the response `[[1700000000000, 100.0], [1700086400000, 105.0]]`
this yields the rows `(2023-11-14, 100)` and `(2023-11-15, 105)`. -/
theorem get_coin_history_normalizes (coin_id : String) (f t : ℤ)
    (l : List (ℕ × ℚ)) :
    get_coin_history coin_id f t ⟨true, some l⟩ =
      (⟨["price", "date"],
        l.map (fun pr => PricePoint.mk (msToDate pr.1) pr.2)⟩, []) ∧
    (get_coin_history "bitcoin" 1700000000 1700086400
        ⟨true, some [(1700000000000, 100), (1700086400000, 105)]⟩).1.rows =
      [⟨⟨2023, 11, 14⟩, 100⟩, ⟨⟨2023, 11, 15⟩, 105⟩] := by
  refine ⟨rfl, ?_⟩
  rfl

/-- C3: on every non-success catalog response, `get_coins_list` returns
the empty sequence and emits exactly one user-facing error notification
(and, being a total function of the response, raises nothing). -/
theorem get_coins_list_failure (body : List Coin) :
    get_coins_list ⟨false, body⟩ = ([], [coinsListErrMsg]) ∧
    (get_coins_list ⟨false, body⟩).2.length = 1 := by
  exact ⟨rfl, rfl⟩

/-- C4: on every non-success history response, `get_coin_history` emits
the error notification for the requested coin and returns an empty
price series (an empty frame with `date` and `price` columns) instead
of failing the caller. -/
theorem get_coin_history_failure (coin_id : String) (f t : ℤ)
    (pr : Option (List (ℕ × ℚ))) :
    get_coin_history coin_id f t ⟨false, pr⟩ =
      (⟨["date", "price"], []⟩, [histErrMsg coin_id]) := by
  rfl

/-- C5: both fetch functions are total on every response: each call
either succeeds with no error notification, or returns the well-typed
empty default together with exactly one notification. -/
theorem fetch_functions_fail_soft (cresp : CatalogResponse)
    (coin_id : String) (f t : ℤ) (hresp : HistResponse) :
    ((get_coins_list cresp).2 = [] ∨
      ((get_coins_list cresp).1 = [] ∧ (get_coins_list cresp).2.length = 1)) ∧
    ((get_coin_history coin_id f t hresp).2 = [] ∨
      ((get_coin_history coin_id f t hresp).1.rows = [] ∧
        (get_coin_history coin_id f t hresp).2.length = 1)) := by
  constructor
  · cases hok : cresp.ok <;> simp [get_coins_list, hok]
  · cases hok : hresp.ok <;> simp [get_coin_history, hok]

/-- C6 counterexample: the claim that every returned descriptor has
non-empty `id` and `name` fails, because `get_coins_list` passes the
parsed array through unvalidated: a successful response containing an
entry with an empty `id` is returned as-is. -/
theorem get_coins_list_nonempty_fields_cex :
    ¬ ∀ c ∈ (get_coins_list ⟨true, [⟨"", "Bitcoin"⟩]⟩).1,
        c.id ≠ "" ∧ c.name ≠ "" := by
  decide

/-- C6 amended: on every successful catalog response with N entries,
`get_coins_list` returns exactly those N descriptors in source order,
each equal to the corresponding response entry (so ids and names are
passed through unchanged, non-empty exactly when the response's are). -/
theorem get_coins_list_source_order (body : List Coin) :
    (get_coins_list ⟨true, body⟩).1 = body ∧
    (get_coins_list ⟨true, body⟩).1.length = body.length := by
  exact ⟨rfl, rfl⟩

/-- C7: starting from an empty cache, two consecutive calls of the
cached `get_coins_list` return identical coin lists while executing the
body — hence the network call — exactly once. -/
theorem cached_get_coins_list_idempotent (resp : CatalogResponse) :
    (cached_get_coins_list resp
        (cached_get_coins_list resp ⟨none, 0⟩).2).1.1 =
      (cached_get_coins_list resp ⟨none, 0⟩).1.1 ∧
    (cached_get_coins_list resp
        (cached_get_coins_list resp ⟨none, 0⟩).2).2.network_calls = 1 := by
  cases hok : resp.ok <;>
    simp [cached_get_coins_list, get_coins_list, hok]

/-- C9: on a successful history response whose JSON object lacks the
`prices` field, the missing field defaults to the empty list, so
`get_coin_history` returns an empty series and emits no notification. -/
theorem get_coin_history_missing_prices (coin_id : String) (f t : ℤ) :
    get_coin_history coin_id f t ⟨true, none⟩ =
      (⟨["price", "date"], []⟩, []) := by
  rfl

/-- C10: on every return path of `get_coin_history` — success with data,
success with an empty or absent prices array, and HTTP failure — the
returned frame's column set is exactly the two columns `date` and
`price`. -/
theorem get_coin_history_columns (coin_id : String) (f t : ℤ)
    (resp : HistResponse) :
    ((get_coin_history coin_id f t resp).1.columns).toFinset =
      ({"date", "price"} : Finset String) := by
  cases hok : resp.ok <;> simp [get_coin_history, hok] <;> decide

/-- The scan `idxmaxAux` agrees with the structural argmax: starting the
scan at offset `i` with running best `b` either keeps `b` (when nothing
in the list strictly beats it) or lands on the structural argmax of the
list, shifted by `i`. -/
theorem idxmaxAux_eq (l : List ℚ) : ∀ (i : ℕ) (b : ℕ × ℚ),
    idxmaxAux b i l =
      (argmaxF l).elim b (fun jv => if b.2 < jv.2 then (i + jv.1, jv.2) else b) := by
  induction l with
  | nil => intro i b; rfl
  | cons x xs ih =>
      intro i b
      simp only [idxmaxAux, argmaxF]
      cases hx : argmaxF xs with
      | none =>
          by_cases hbx : b.2 < x <;>
            simp [hbx, ih, hx, Option.elim]
      | some jv =>
          obtain ⟨j, v⟩ := jv
          by_cases hbx : b.2 < x
          · rw [if_pos hbx, ih, hx]
            by_cases hxv : x < v
            · have hbv : b.2 < v := lt_trans hbx hxv
              simp [hxv, hbv, Option.elim]
              omega
            · simp [hxv, hbx, Option.elim]
          · rw [if_neg hbx, ih, hx]
            by_cases hxv : x < v
            · simp only [hxv, if_pos, Option.elim]
              by_cases hbv : b.2 < v <;> simp [hbv]
              omega
            · have hvb : ¬ b.2 < v := by
                push_neg at hbx hxv ⊢
                exact le_trans hxv hbx
              simp [hxv, hbx, hvb, Option.elim]

/-- The scan `idxminAux` agrees with the structural argmin. -/
theorem idxminAux_eq (l : List ℚ) : ∀ (i : ℕ) (b : ℕ × ℚ),
    idxminAux b i l =
      (argminF l).elim b (fun jv => if jv.2 < b.2 then (i + jv.1, jv.2) else b) := by
  induction l with
  | nil => intro i b; rfl
  | cons x xs ih =>
      intro i b
      simp only [idxminAux, argminF]
      cases hx : argminF xs with
      | none =>
          by_cases hbx : x < b.2 <;>
            simp [hbx, ih, hx, Option.elim]
      | some jv =>
          obtain ⟨j, v⟩ := jv
          by_cases hbx : x < b.2
          · rw [if_pos hbx, ih, hx]
            by_cases hxv : v < x
            · have hbv : v < b.2 := lt_trans hxv hbx
              simp [hxv, hbv, Option.elim]
              omega
            · simp [hxv, hbx, Option.elim]
          · rw [if_neg hbx, ih, hx]
            by_cases hxv : v < x
            · simp only [hxv, if_pos, Option.elim]
              by_cases hbv : v < b.2 <;> simp [hbv]
              omega
            · have hvb : ¬ v < b.2 := by
                push_neg at hbx hxv ⊢
                exact le_trans hbx hxv
              simp [hxv, hbx, hvb, Option.elim]

/-- On a non-empty list the scan from the head equals the structural
argmax of the whole list. -/
theorem argmaxF_cons (x : ℚ) (xs : List ℚ) :
    argmaxF (x :: xs) = some (idxmaxAux (0, x) 1 xs) := by
  rw [idxmaxAux_eq]
  cases hx : argmaxF xs with
  | none => simp [argmaxF, hx, Option.elim]
  | some jv =>
      obtain ⟨j, v⟩ := jv
      by_cases hxv : x < v <;>
        simp [argmaxF, hx, hxv, Option.elim, Nat.add_comm]

/-- On a non-empty list the scan from the head equals the structural
argmin of the whole list. -/
theorem argminF_cons (x : ℚ) (xs : List ℚ) :
    argminF (x :: xs) = some (idxminAux (0, x) 1 xs) := by
  rw [idxminAux_eq]
  cases hx : argminF xs with
  | none => simp [argminF, hx, Option.elim]
  | some jv =>
      obtain ⟨j, v⟩ := jv
      by_cases hxv : v < x <;>
        simp [argminF, hx, hxv, Option.elim, Nat.add_comm]

/-- Specification of the structural argmax: the returned offset is in
range, holds the returned value, every earlier element is strictly
smaller (first occurrence), and the value bounds the whole list. -/
theorem argmaxF_spec (l : List ℚ) : ∀ j v, argmaxF l = some (j, v) →
    ∃ h : j < l.length, l.get ⟨j, h⟩ = v ∧
      (∀ k (hk : k < l.length), k < j → l.get ⟨k, hk⟩ < v) ∧
      ∀ y ∈ l, y ≤ v := by
  induction l with
  | nil => intro j v h; simp [argmaxF] at h
  | cons x xs ih =>
      intro j v hjv
      cases hx : argmaxF xs with
      | none =>
          have hxs : xs = [] := by
            cases xs with
            | nil => rfl
            | cons a as => rw [argmaxF_cons] at hx; exact absurd hx (by simp)
          subst hxs
          simp only [argmaxF, Option.some.injEq, Prod.mk.injEq] at hjv
          obtain ⟨rfl, rfl⟩ := hjv
          exact ⟨by simp, rfl, fun k hk hkj => absurd hkj (by omega), by simp⟩
      | some jv' =>
          obtain ⟨j', v'⟩ := jv'
          simp only [argmaxF, hx] at hjv
          obtain ⟨hlen', hget', hfirst', hle'⟩ := ih j' v' hx
          by_cases hxv : x < v'
          · rw [if_pos hxv] at hjv
            simp only [Option.some.injEq, Prod.mk.injEq] at hjv
            obtain ⟨rfl, rfl⟩ := hjv
            refine ⟨by simpa using Nat.succ_lt_succ hlen', by simpa using hget', ?_, ?_⟩
            · intro k hk hkj
              cases k with
              | zero => simpa using hxv
              | succ k =>
                  have hk' : k < xs.length := by simpa using hk
                  have := hfirst' k hk' (by omega)
                  simpa using this
            · intro y hy
              rcases List.mem_cons.mp hy with rfl | hy
              · exact le_of_lt hxv
              · exact hle' y hy
          · rw [if_neg hxv] at hjv
            simp only [Option.some.injEq, Prod.mk.injEq] at hjv
            obtain ⟨rfl, rfl⟩ := hjv
            refine ⟨Nat.succ_pos _, rfl, fun k hk hkj => absurd hkj (by omega), ?_⟩
            intro y hy
            rcases List.mem_cons.mp hy with rfl | hy
            · exact le_refl y
            · exact le_trans (hle' y hy) (not_lt.mp hxv)

/-- Specification of the structural argmin, dual to `argmaxF_spec`. -/
theorem argminF_spec (l : List ℚ) : ∀ j v, argminF l = some (j, v) →
    ∃ h : j < l.length, l.get ⟨j, h⟩ = v ∧
      (∀ k (hk : k < l.length), k < j → v < l.get ⟨k, hk⟩) ∧
      ∀ y ∈ l, v ≤ y := by
  induction l with
  | nil => intro j v h; simp [argminF] at h
  | cons x xs ih =>
      intro j v hjv
      cases hx : argminF xs with
      | none =>
          have hxs : xs = [] := by
            cases xs with
            | nil => rfl
            | cons a as => rw [argminF_cons] at hx; exact absurd hx (by simp)
          subst hxs
          simp only [argminF, Option.some.injEq, Prod.mk.injEq] at hjv
          obtain ⟨rfl, rfl⟩ := hjv
          exact ⟨by simp, rfl, fun k hk hkj => absurd hkj (by omega), by simp⟩
      | some jv' =>
          obtain ⟨j', v'⟩ := jv'
          simp only [argminF, hx] at hjv
          obtain ⟨hlen', hget', hfirst', hle'⟩ := ih j' v' hx
          by_cases hxv : v' < x
          · rw [if_pos hxv] at hjv
            simp only [Option.some.injEq, Prod.mk.injEq] at hjv
            obtain ⟨rfl, rfl⟩ := hjv
            refine ⟨by simpa using Nat.succ_lt_succ hlen', by simpa using hget', ?_, ?_⟩
            · intro k hk hkj
              cases k with
              | zero => simpa using hxv
              | succ k =>
                  have hk' : k < xs.length := by simpa using hk
                  have := hfirst' k hk' (by omega)
                  simpa using this
            · intro y hy
              rcases List.mem_cons.mp hy with rfl | hy
              · exact le_of_lt hxv
              · exact hle' y hy
          · rw [if_neg hxv] at hjv
            simp only [Option.some.injEq, Prod.mk.injEq] at hjv
            obtain ⟨rfl, rfl⟩ := hjv
            refine ⟨Nat.succ_pos _, rfl, fun k hk hkj => absurd hkj (by omega), ?_⟩
            intro y hy
            rcases List.mem_cons.mp hy with rfl | hy
            · exact le_refl y
            · exact le_trans (not_lt.mp hxv) (hle' y hy)

/-- The left fold of binary max (pandas `Series.max`) dominates its seed
and every list element, and is attained by the seed or by an element. -/
theorem foldl_max_spec (xs : List ℚ) : ∀ a : ℚ,
    a ≤ xs.foldl max a ∧ (∀ y ∈ xs, y ≤ xs.foldl max a) ∧
      (xs.foldl max a = a ∨ xs.foldl max a ∈ xs) := by
  induction xs with
  | nil => intro a; exact ⟨le_refl a, by simp, Or.inl rfl⟩
  | cons x xs ih =>
      intro a
      obtain ⟨h1, h2, h3⟩ := ih (max a x)
      simp only [List.foldl_cons]
      refine ⟨le_trans (le_max_left a x) h1, ?_, ?_⟩
      · intro y hy
        rcases List.mem_cons.mp hy with rfl | hy
        · exact le_trans (le_max_right a y) h1
        · exact h2 y hy
      · rcases h3 with h3 | h3
        · rcases max_choice a x with hc | hc
          · exact Or.inl (h3.trans hc)
          · exact Or.inr (List.mem_cons.mpr (Or.inl (h3.trans hc)))
        · exact Or.inr (List.mem_cons.mpr (Or.inr h3))

/-- The left fold of binary min (pandas `Series.min`), dual of
`foldl_max_spec`. -/
theorem foldl_min_spec (xs : List ℚ) : ∀ a : ℚ,
    xs.foldl min a ≤ a ∧ (∀ y ∈ xs, xs.foldl min a ≤ y) ∧
      (xs.foldl min a = a ∨ xs.foldl min a ∈ xs) := by
  induction xs with
  | nil => intro a; exact ⟨le_refl a, by simp, Or.inl rfl⟩
  | cons x xs ih =>
      intro a
      obtain ⟨h1, h2, h3⟩ := ih (min a x)
      simp only [List.foldl_cons]
      refine ⟨le_trans h1 (min_le_left a x), ?_, ?_⟩
      · intro y hy
        rcases List.mem_cons.mp hy with rfl | hy
        · exact le_trans h1 (min_le_right a y)
        · exact h2 y hy
      · rcases h3 with h3 | h3
        · rcases min_choice a x with hc | hc
          · exact Or.inl (h3.trans hc)
          · exact Or.inr (List.mem_cons.mpr (Or.inl (h3.trans hc)))
        · exact Or.inr (List.mem_cons.mpr (Or.inr h3))

/-- Reading an index of the price column equals the `price` field at the
same index of the row list. -/
theorem map_price_get (l : List PricePoint) (i : ℕ)
    (hi : i < (l.map PricePoint.price).length) (hi2 : i < l.length) :
    (l.map PricePoint.price).get ⟨i, hi⟩ = (l.get ⟨i, hi2⟩).price := by
  simp [List.get_eq_getElem, List.getElem_map]

/-- In-range `getD` reads never fall back to the default row. -/
theorem getD_date (l : List PricePoint) (i : ℕ) (d : PricePoint)
    (hi : i < l.length) : l.getD i d = l.get ⟨i, hi⟩ := by
  rw [List.getD_eq_getElem l d hi]
  simp [List.get_eq_getElem]

/-- C1: on every non-empty series, `summarize` returns the maximum and
minimum of the price column together with the dates of the points
attaining them, and when several points share the extreme price the
first such point in series order is the one whose date is reported,
for both the maximum and the minimum (stable argmax/argmin): the
reported index `i` attains the extreme and every earlier point is
strictly on the wrong side of it. -/
theorem summarize_first_extremes (rows : List PricePoint) (hne : rows ≠ []) :
    ∃ s, summarize rows = some s ∧
      (∀ q ∈ rows, q.price ≤ s.max_price) ∧
      (∃ i, ∃ hi : i < rows.length,
        (rows.get ⟨i, hi⟩).price = s.max_price ∧
        (rows.get ⟨i, hi⟩).date = s.max_date ∧
        ∀ j (hj : j < rows.length), j < i →
          (rows.get ⟨j, hj⟩).price < s.max_price) ∧
      (∀ q ∈ rows, s.min_price ≤ q.price) ∧
      (∃ i, ∃ hi : i < rows.length,
        (rows.get ⟨i, hi⟩).price = s.min_price ∧
        (rows.get ⟨i, hi⟩).date = s.min_date ∧
        ∀ j (hj : j < rows.length), j < i →
          s.min_price < (rows.get ⟨j, hj⟩).price) := by
  cases rows with
  | nil => exact absurd rfl hne
  | cons p ps =>
      have hAX : argmaxF (p.price :: ps.map PricePoint.price) =
          some ((idxmaxAux (0, p.price) 1 (ps.map PricePoint.price)).1,
                (idxmaxAux (0, p.price) 1 (ps.map PricePoint.price)).2) := by
        rw [argmaxF_cons]
      have hAN : argminF (p.price :: ps.map PricePoint.price) =
          some ((idxminAux (0, p.price) 1 (ps.map PricePoint.price)).1,
                (idxminAux (0, p.price) 1 (ps.map PricePoint.price)).2) := by
        rw [argminF_cons]
      obtain ⟨hlen, hget, hfirst, hle⟩ := argmaxF_spec _ _ _ hAX
      obtain ⟨hlen2, hget2, hfirst2, hle2⟩ := argminF_spec _ _ _ hAN
      obtain ⟨hm1, hm2, hm3⟩ := foldl_max_spec (ps.map PricePoint.price) p.price
      obtain ⟨hn1, hn2, hn3⟩ := foldl_min_spec (ps.map PricePoint.price) p.price
      have hiA : (idxmaxAux (0, p.price) 1 (ps.map PricePoint.price)).1 <
          (p :: ps).length := by simpa using hlen
      have hiB : (idxminAux (0, p.price) 1 (ps.map PricePoint.price)).1 <
          (p :: ps).length := by simpa using hlen2
      have hveqmax : (idxmaxAux (0, p.price) 1 (ps.map PricePoint.price)).2 =
          (ps.map PricePoint.price).foldl max p.price := by
        apply le_antisymm
        · have hmem : (idxmaxAux (0, p.price) 1 (ps.map PricePoint.price)).2 ∈
              p.price :: ps.map PricePoint.price := by
            rw [← hget]; exact List.get_mem _ _ _
          rcases List.mem_cons.mp hmem with h | h
          · exact h.le.trans hm1
          · exact hm2 _ h
        · rcases hm3 with h | h
          · rw [h]; exact hle p.price (List.mem_cons_self _ _)
          · exact hle _ (List.mem_cons_of_mem _ h)
      have hveqmin : (idxminAux (0, p.price) 1 (ps.map PricePoint.price)).2 =
          (ps.map PricePoint.price).foldl min p.price := by
        apply le_antisymm
        · rcases hn3 with h | h
          · rw [h]; exact hle2 p.price (List.mem_cons_self _ _)
          · exact hle2 _ (List.mem_cons_of_mem _ h)
        · have hmem : (idxminAux (0, p.price) 1 (ps.map PricePoint.price)).2 ∈
              p.price :: ps.map PricePoint.price := by
            rw [← hget2]; exact List.get_mem _ _ _
          rcases List.mem_cons.mp hmem with h | h
          · exact hn1.trans h.ge
          · exact hn2 _ h
      refine ⟨⟨(ps.map PricePoint.price).foldl max p.price,
        ((p :: ps).getD (idxmaxAux (0, p.price) 1 (ps.map PricePoint.price)).1 p).date,
        (ps.map PricePoint.price).foldl min p.price,
        ((p :: ps).getD (idxminAux (0, p.price) 1 (ps.map PricePoint.price)).1 p).date⟩,
        rfl, ?_, ?_, ?_, ?_⟩
      · intro q hq
        rcases List.mem_cons.mp hq with rfl | hq
        · exact hm1
        · exact hm2 q.price (List.mem_map_of_mem PricePoint.price hq)
      · refine ⟨(idxmaxAux (0, p.price) 1 (ps.map PricePoint.price)).1, hiA, ?_, ?_, ?_⟩
        · have hmg := map_price_get (p :: ps)
            (idxmaxAux (0, p.price) 1 (ps.map PricePoint.price)).1
            (by simpa using hiA) hiA
          rw [← hmg]
          exact hget.trans hveqmax
        · rw [getD_date (p :: ps) _ p hiA]
        · intro j hj hji
          have hjT : j < (p.price :: ps.map PricePoint.price).length := by
            simpa using hj
          have hlt := hfirst j hjT hji
          have hmg := map_price_get (p :: ps) j (by simpa using hj) hj
          rw [← hmg]
          exact lt_of_lt_of_eq hlt hveqmax
      · intro q hq
        rcases List.mem_cons.mp hq with rfl | hq
        · exact hn1
        · exact hn2 q.price (List.mem_map_of_mem PricePoint.price hq)
      · refine ⟨(idxminAux (0, p.price) 1 (ps.map PricePoint.price)).1, hiB, ?_, ?_, ?_⟩
        · have hmg := map_price_get (p :: ps)
            (idxminAux (0, p.price) 1 (ps.map PricePoint.price)).1
            (by simpa using hiB) hiB
          rw [← hmg]
          exact hget2.trans hveqmin
        · rw [getD_date (p :: ps) _ p hiB]
        · intro j hj hji
          have hjT : j < (p.price :: ps.map PricePoint.price).length := by
            simpa using hj
          have hlt := hfirst2 j hjT hji
          have hmg := map_price_get (p :: ps) j (by simpa using hj) hj
          rw [← hmg]
          exact lt_of_eq_of_lt hveqmin.symm hlt

/-- C1 witness: the summarize theorem applied to the spec's example
series of prices 100, 105, 90. -/
theorem summarize_first_extremes_witness :
    exampleSeries ≠ [] ∧
    (∃ s, summarize exampleSeries = some s ∧
      (∀ q ∈ exampleSeries, q.price ≤ s.max_price) ∧
      (∃ i, ∃ hi : i < exampleSeries.length,
        (exampleSeries.get ⟨i, hi⟩).price = s.max_price ∧
        (exampleSeries.get ⟨i, hi⟩).date = s.max_date ∧
        ∀ j (hj : j < exampleSeries.length), j < i →
          (exampleSeries.get ⟨j, hj⟩).price < s.max_price) ∧
      (∀ q ∈ exampleSeries, s.min_price ≤ q.price) ∧
      (∃ i, ∃ hi : i < exampleSeries.length,
        (exampleSeries.get ⟨i, hi⟩).price = s.min_price ∧
        (exampleSeries.get ⟨i, hi⟩).date = s.min_date ∧
        ∀ j (hj : j < exampleSeries.length), j < i →
          s.min_price < (exampleSeries.get ⟨j, hj⟩).price)) :=
  ⟨by decide, summarize_first_extremes exampleSeries (by decide)⟩

/-- Rounding a rational to twelve decimal places moves it by at most
half a unit in the last displayed place. -/
theorem format12_close (q : ℚ) : |format12 q - q| ≤ 1 / (2 * 10 ^ 12) := by
  have hE : (0 : ℚ) < 10 ^ 12 := by positivity
  have hrw : format12 q - q =
      (((round (q * 10 ^ 12) : ℤ) : ℚ) - q * 10 ^ 12) / 10 ^ 12 := by
    unfold format12
    field_simp
    ring
  rw [hrw, abs_div, abs_of_pos hE, div_le_iff hE]
  have h2 : (1 : ℚ) / (2 * 10 ^ 12) * 10 ^ 12 = 1 / 2 := by norm_num
  rw [h2]
  calc |((round (q * 10 ^ 12) : ℤ) : ℚ) - q * 10 ^ 12|
      = |q * 10 ^ 12 - ((round (q * 10 ^ 12) : ℤ) : ℚ)| := abs_sub_comm _ _
    _ ≤ 1 / 2 := abs_sub_round _

/-- C8: for every displayed summary, the formatted maximum and minimum
prices carry fixed 12-decimal precision (each is an integer number of
trillionths), and parsing the 12-decimal string back yields a value
within half a unit in the twelfth decimal place of the original price
(round-trip within tolerance). -/
theorem format12_display (s : Summary) :
    (∃ n : ℤ, format12 s.max_price = (n : ℚ) / 10 ^ 12) ∧
    |format12 s.max_price - s.max_price| ≤ 1 / (2 * 10 ^ 12) ∧
    (∃ n : ℤ, format12 s.min_price = (n : ℚ) / 10 ^ 12) ∧
    |format12 s.min_price - s.min_price| ≤ 1 / (2 * 10 ^ 12) := by
  exact ⟨⟨round (s.max_price * 10 ^ 12), rfl⟩, format12_close _,
    ⟨round (s.min_price * 10 ^ 12), rfl⟩, format12_close _⟩
